import Mathlib

/-!
Verification development for the cache abstraction and rate limiter of the
go-clean-architecture repository.  The Go source under `pkg/cache`
(`memory_cache.go`, `redis_cache.go`, `utils.go`) and the rate-limiting
middleware (`validator/tags.go`) are shallowly embedded as pure Lean
functions.  Wall-clock instants and durations are modelled as integers
(Go `time.Time` / `time.Duration` are nanosecond counts); each operation
takes the current instant `now` as an explicit argument.
-/

namespace GoCache

/-- A Go byte slice: a list of byte values (each `< 256`). -/
abbrev Bytes := List Nat

/-- UTF-8 encoding of a single character (Go strings are UTF-8 byte
sequences). -/
def utf8Bytes (c : Char) : Bytes :=
  let n := c.toNat
  if n < 128 then [n]
  else if n < 2048 then [192 + n / 64, 128 + n % 64]
  else if n < 65536 then [224 + n / 4096, 128 + (n / 64) % 64, 128 + n % 64]
  else [240 + n / 262144, 128 + (n / 4096) % 64, 128 + (n / 64) % 64, 128 + n % 64]

/-- The bytes of a Go string. -/
def strBytes (s : String) : Bytes := (s.data.map utf8Bytes).flatten

/-- Value of an ASCII decimal digit byte, if it is one. -/
def digitVal (b : Nat) : Option Nat :=
  if 48 ≤ b ∧ b ≤ 57 then some (b - 48) else none

/-- Accumulating decimal parse of a run of digit bytes
(`strconv.ParseUint`, base 10, without the range check). -/
def parseDigitsAux : Nat → Bytes → Option Nat
  | acc, [] => some acc
  | acc, b :: rest =>
    match digitVal b with
    | none => none
    | some d => parseDigitsAux (acc * 10 + d) rest

/-- Decimal parse of a nonempty all-digit byte string. -/
def parseDigits : Bytes → Option Nat
  | [] => none
  | l => parseDigitsAux 0 l

/-- Model of `parseInt64` (pkg/cache/utils.go), i.e.
`strconv.ParseInt(string(data), 10, 64)`: an optional sign, then one or
more decimal digits, the value required to fit in a signed 64-bit
integer.  `none` models a non-nil error. -/
def parseInt64 (data : Bytes) : Option Int :=
  match data with
  | [] => none
  | b :: rest =>
    if b = 45 then
      match parseDigits rest with
      | none => none
      | some n => if n ≤ 2 ^ 63 then some (-(n : Int)) else none
    else if b = 43 then
      match parseDigits rest with
      | none => none
      | some n => if n ≤ 2 ^ 63 - 1 then some (n : Int) else none
    else
      match parseDigits (b :: rest) with
      | none => none
      | some n => if n ≤ 2 ^ 63 - 1 then some (n : Int) else none

/-- Least-significant-first decimal digits of a natural number, with
explicit fuel (fuel `n + 1` always suffices for input `n`). -/
def lsbDigits : Nat → Nat → List Nat
  | 0, _ => []
  | fuel + 1, n => if n < 10 then [n] else n % 10 :: lsbDigits fuel (n / 10)

/-- Most-significant-first ASCII decimal digit bytes of a natural number. -/
def natDigits (n : Nat) : Bytes := ((lsbDigits (n + 1) n).reverse).map (· + 48)

/-- Model of `formatInt64` (pkg/cache/utils.go), i.e.
`strconv.FormatInt(value, 10)`. -/
def formatInt64 (v : Int) : Bytes :=
  if v < 0 then 45 :: natDigits v.natAbs else natDigits v.toNat

/-- Wrap-around of Go signed 64-bit integer addition results. -/
def wrap64 (x : Int) : Int := (x + 2 ^ 63) % 2 ^ 64 - 2 ^ 63

/-- Association-list lookup, modelling a Go `map` read. -/
def alookup {α : Type} : List (String × α) → String → Option α
  | [], _ => none
  | (k, v) :: rest, key => if k = key then some v else alookup rest key

/-- Association-list store, modelling a Go `map` write. -/
def aset {α : Type} : List (String × α) → String → α → List (String × α)
  | [], key, v => [(key, v)]
  | (k, w) :: rest, key, v =>
    if k = key then (key, v) :: rest else (k, w) :: aset rest key v

/-- Association-list removal, modelling a Go `delete`. -/
def adel {α : Type} : List (String × α) → String → List (String × α)
  | [], _ => []
  | (k, w) :: rest, key =>
    if k = key then adel rest key else (k, w) :: adel rest key

/-- Lexicographic comparison of character lists by code point.  On the
characters of two strings this is exactly Go's byte-wise string order
(UTF-8 encoding preserves code-point order). -/
def charsLe : List Char → List Char → Bool
  | [], _ => true
  | _ :: _, [] => false
  | a :: as, b :: bs =>
    if a.toNat < b.toNat then true
    else if b.toNat < a.toNat then false
    else charsLe as bs

/-- Go's string order (`s1 <= s2` as compared by `sort.Strings`). -/
def strLe (a b : String) : Bool := charsLe a.data b.data

/-- Decidable equality of `Except` results, so that concrete runs can be
checked by evaluation. -/
instance exceptDecEq {ε α : Type} [DecidableEq ε] [DecidableEq α] :
    DecidableEq (Except ε α) := fun a b =>
  match a, b with
  | .error e₁, .error e₂ =>
    if h : e₁ = e₂ then .isTrue (by rw [h]) else .isFalse (by simp [h])
  | .error _, .ok _ => .isFalse (by simp)
  | .ok _, .error _ => .isFalse (by simp)
  | .ok v₁, .ok v₂ =>
    if h : v₁ = v₂ then .isTrue (by rw [h]) else .isFalse (by simp [h])

/-- The error kinds declared in pkg/cache (cache.go); `opError` models the
wrapped `&Error{Operation, Key, Err}` values of the Redis backend. -/
inductive CacheError : Type
  | keyNotFound
  | keyExists
  | invalidTTL
  | lockFailed
  | connectionFail
  | serialization
  | opError (op : String) (key : String)
deriving DecidableEq

/-- A `memoryItem` (memory_cache.go): payload bytes, absolute expiry
instant (`none` models the zero `time.Time`, i.e. no expiry), creation
instant. -/
structure MemoryItem : Type where
  value : Bytes
  expiresAt : Option Int
  createdAt : Int
deriving DecidableEq

/-- The part of `Config` the memory backend's operations consult. -/
structure MemConfig : Type where
  defaultTTL : Int
deriving DecidableEq

/-- The `MemoryCache` state: the `data` map (as an association list) and
the configuration. -/
structure MemoryCache : Type where
  data : List (String × MemoryItem)
  config : MemConfig
deriving DecidableEq

/-- `MemoryCache.isExpired`: the zero expiry means never expired,
otherwise expired iff `now` is after the expiry instant. -/
def isExpired (now : Int) (item : MemoryItem) : Bool :=
  match item.expiresAt with
  | none => false
  | some e => decide (now > e)

/-- The expiry instant computed by the memory backend's write paths:
`now + ttl` when `ttl > 0`, otherwise the zero time (no expiry). -/
def computeExpiry (now ttl : Int) : Option Int :=
  if ttl > 0 then some (now + ttl) else none

/-- `MemoryCache.Get`: a missing or expired entry yields `ErrKeyNotFound`. -/
def memGet (m : MemoryCache) (now : Int) (key : String) : Except CacheError Bytes :=
  match alookup m.data key with
  | none => .error .keyNotFound
  | some item =>
    if isExpired now item then .error .keyNotFound else .ok item.value

/-- `MemoryCache.Set`: `ttl = 0` is replaced by the configured default
TTL; the entry's expiry is `now + ttl` when the (substituted) ttl is
positive and absent otherwise.  The Go method unconditionally returns a
nil error, modelled by the `Option CacheError` component being `none`. -/
def memSet (m : MemoryCache) (now : Int) (key : String) (value : Bytes) (ttl : Int) :
    Option CacheError × MemoryCache :=
  let ttl' := if ttl = 0 then m.config.defaultTTL else ttl
  (none,
    { m with data := aset m.data key ⟨value, computeExpiry now ttl', now⟩ })

/-- `MemoryCache.Delete`. -/
def memDelete (m : MemoryCache) (key : String) : MemoryCache :=
  { m with data := adel m.data key }

/-- `MemoryCache.Increment`: the current value is the stored payload
parsed as a decimal int64 when the entry exists, is unexpired, is
nonempty and parses; otherwise 0.  The new value (with Go int64
wrap-around) is stored with a fresh expiry of `now + ttl` (after the
`ttl = 0 →` default substitution) and returned. -/
def memIncrement (m : MemoryCache) (now : Int) (key : String) (delta : Int) (ttl : Int) :
    Except CacheError Int × MemoryCache :=
  let current : Int :=
    match alookup m.data key with
    | some item =>
      if isExpired now item then 0
      else if item.value.length > 0 then
        match parseInt64 item.value with
        | some v => v
        | none => 0
      else 0
    | none => 0
  let newValue := wrap64 (current + delta)
  let ttl' := if ttl = 0 then m.config.defaultTTL else ttl
  (.ok newValue,
    { m with data := aset m.data key ⟨formatInt64 newValue, computeExpiry now ttl', now⟩ })

/-- One character of a glob character class, possibly backslash-escaped
(`getEsc` in Go's path/filepath/match.go); a leading `-` or `]`, an
empty chunk, or a trailing escape is a bad pattern (`none`). -/
def getEsc : List Char → Option (Char × List Char)
  | [] => none
  | c :: rest =>
    if c = '-' ∨ c = ']' then none
    else if c = '\\' then
      match rest with
      | [] => none
      | e :: rest' => some (e, rest')
    else some (c, rest)

/-- Scan the ranges of a glob character class against character `r`
until the closing `]` (which only closes a class with at least one
range).  Returns whether `r` matched some range, and the pattern after
the class; `none` models `ErrBadPattern`. -/
def classRanges : Nat → Char → List Char → Bool → Bool → Option (Bool × List Char)
  | 0, _, _, _, _ => none
  | fuel + 1, r, p, matched, nonempty =>
    match p with
    | ']' :: rest =>
      if nonempty then some (matched, rest) else none
    | _ =>
      match getEsc p with
      | none => none
      | some (lo, p₁) =>
        match p₁ with
        | '-' :: p₂ =>
          match getEsc p₂ with
          | none => none
          | some (hi, p₃) =>
            classRanges fuel r p₃ (matched || decide (lo ≤ r ∧ r ≤ hi)) true
        | _ => classRanges fuel r p₁ (matched || decide (lo ≤ r ∧ r ≤ lo)) true

/-- Fuel-indexed recursive semantics of Go's `filepath.Match` on Unix:
`*` matches any run of non-separator characters, `?` one non-separator
character, `[...]`/`[^...]` a character class, `\\` escapes.  Since the
caller (memory_cache.go `GetKeys`) discards the error return, a bad
pattern is folded into `false`.  Each recursive call shrinks
`pattern.length + name.length`, so fuel `pattern.length + name.length + 1`
computes the true value. -/
def matchGlob : Nat → List Char → List Char → Bool
  | 0, _, _ => false
  | fuel + 1, p, n =>
    match p with
    | [] => n.isEmpty
    | '*' :: p₁ =>
      matchGlob fuel p₁ n ||
        (match n with
         | [] => false
         | c :: n₁ => decide (c ≠ '/') && matchGlob fuel p n₁)
    | '?' :: p₁ =>
      (match n with
       | [] => false
       | c :: n₁ => decide (c ≠ '/') && matchGlob fuel p₁ n₁)
    | '[' :: p₁ =>
      (match n with
       | [] => false
       | c :: n₁ =>
         let negp : Bool × List Char :=
           match p₁ with
           | '^' :: rest => (true, rest)
           | _ => (false, p₁)
         match classRanges (negp.2.length + 1) c negp.2 false false with
         | none => false
         | some (matched, pRest) => (matched != negp.1) && matchGlob fuel pRest n₁)
    | '\\' :: p₁ =>
      (match p₁, n with
       | e :: p₂, c :: n₁ => decide (e = c) && matchGlob fuel p₂ n₁
       | _, _ => false)
    | c :: p₁ =>
      (match n with
       | [] => false
       | d :: n₁ => decide (c = d) && matchGlob fuel p₁ n₁)

/-- `filepath.Match(pattern, name)` with the error folded into `false`,
as consumed by `MemoryCache.GetKeys`. -/
def globMatch (pattern name : String) : Bool :=
  matchGlob (pattern.length + name.length + 1) pattern.data name.data

/-- `MemoryCache.GetKeys`: the keys of the `data` map matching the
pattern, sorted (`sort.Strings`).  The Go loop visits the map in an
arbitrary order and sorts afterwards, so the result is exactly the
sorted list of matching keys; no expiry check is performed. -/
def memGetKeys (m : MemoryCache) (pattern : String) : List String :=
  List.insertionSort (fun a b => strLe a b = true)
    ((m.data.map Prod.fst).filter fun k => globMatch pattern k)

/-- `LockKey` (pkg/cache/utils.go): the derived key of a resource lock. -/
def lockKey (resource : String) : String := "lock:" ++ resource

/-- `MemoryCache.Lock`: if a live entry exists at the derived lock key
the call returns `false` and changes nothing; otherwise it creates the
entry (payload `"locked"`, expiry `now + ttl` when `ttl > 0`) and
returns `true`.  No default-TTL substitution happens here. -/
def memLock (m : MemoryCache) (now : Int) (key : String) (ttl : Int) :
    Except CacheError Bool × MemoryCache :=
  let lk := lockKey key
  let acquire : Except CacheError Bool × MemoryCache :=
    (.ok true,
      { m with data := aset m.data lk ⟨strBytes "locked", computeExpiry now ttl, now⟩ })
  match alookup m.data lk with
  | some item => if isExpired now item then acquire else (.ok false, m)
  | none => acquire

/-- `MemoryCache.Unlock`: delete the derived lock key. -/
def memUnlock (m : MemoryCache) (key : String) : MemoryCache :=
  memDelete m (lockKey key)

/-- An entry of the networked (Redis-like) store: payload bytes and an
optional absolute expiry instant. -/
structure RedisEntry : Type where
  value : Bytes
  expiresAt : Option Int
deriving DecidableEq

/-- The networked store's keyspace. -/
structure RedisState : Type where
  data : List (String × RedisEntry)
deriving DecidableEq

/-- A key is live when it has no expiry or the expiry instant has not
been reached (the store expires keys lazily at its native TTL
mechanism). -/
def redisLive (now : Int) (e : RedisEntry) : Bool :=
  match e.expiresAt with
  | none => true
  | some t => decide (now < t)

/-- Model of the Redis `INCRBY` command: a missing (or expired) key is
created holding the delta with no expiry; a live key must hold a
decimal int64 (else an error) and is updated in place, keeping its TTL;
a result outside the int64 range is an overflow error. -/
def redisIncrBy (st : RedisState) (now : Int) (key : String) (delta : Int) :
    Except CacheError Int × RedisState :=
  match alookup st.data key with
  | some e =>
    if redisLive now e then
      match parseInt64 e.value with
      | none => (.error (.opError "increment" key), st)
      | some v =>
        let n := v + delta
        if n < -(2 ^ 63) ∨ n > 2 ^ 63 - 1 then (.error (.opError "increment" key), st)
        else (.ok n, ⟨aset st.data key ⟨formatInt64 n, e.expiresAt⟩⟩)
    else (.ok delta, ⟨aset st.data key ⟨formatInt64 delta, none⟩⟩)
  | none => (.ok delta, ⟨aset st.data key ⟨formatInt64 delta, none⟩⟩)

/-- Model of the Redis `EXPIRE` command: on a live key, a positive ttl
sets the expiry to `now + ttl` and a nonpositive ttl deletes the key;
a missing or expired key is untouched. -/
def redisExpire (st : RedisState) (now : Int) (key : String) (ttl : Int) : RedisState :=
  match alookup st.data key with
  | some e =>
    if redisLive now e then
      if ttl > 0 then ⟨aset st.data key ⟨e.value, some (now + ttl)⟩⟩
      else ⟨adel st.data key⟩
    else st
  | none => st

/-- `RedisCache.Increment` (redis_cache.go): a pipelined `INCRBY`
followed by an `EXPIRE` with the given ttl when `ttl > 0`, or with the
configured default TTL when `ttl = 0` and the default is positive, and
by no `EXPIRE` otherwise.  A pipeline error is surfaced as the wrapped
operation error. -/
def redisIncrement (st : RedisState) (defaultTTL : Int) (now : Int) (key : String)
    (delta : Int) (ttl : Int) : Except CacheError Int × RedisState :=
  let step := redisIncrBy st now key delta
  let st₁ := step.2
  let st₂ :=
    if ttl > 0 then redisExpire st₁ now key ttl
    else if ttl = 0 ∧ defaultTTL > 0 then redisExpire st₁ now key defaultTTL
    else st₁
  match step.1 with
  | .error e => (.error e, st₂)
  | .ok n => (.ok n, st₂)

/-- The `KeepTTL` sentinel of the go-redis client. -/
def keepTTL : Int := -1

/-- Model of the go-redis `SET` command as issued by `RedisCache.Set`:
a positive expiration is attached via `EX`/`PX`; the `KeepTTL` sentinel
preserves a live key's TTL; any other nonpositive expiration stores the
value with no expiry. -/
def redisSetCmd (st : RedisState) (now : Int) (key : String) (value : Bytes) (ttl : Int) :
    RedisState :=
  if ttl > 0 then ⟨aset st.data key ⟨value, some (now + ttl)⟩⟩
  else if ttl = keepTTL then
    match alookup st.data key with
    | some e =>
      if redisLive now e then ⟨aset st.data key ⟨value, e.expiresAt⟩⟩
      else ⟨aset st.data key ⟨value, none⟩⟩
    | none => ⟨aset st.data key ⟨value, none⟩⟩
  else ⟨aset st.data key ⟨value, none⟩⟩

/-- `RedisCache.Set` (redis_cache.go): `ttl = 0` is replaced by the
configured default TTL, then the `SET` command is issued; no ttl
validation is performed (connectivity failures are outside this pure
model, so the error component is always `none`). -/
def redisSet (st : RedisState) (defaultTTL : Int) (now : Int) (key : String)
    (value : Bytes) (ttl : Int) : Option CacheError × RedisState :=
  let ttl' := if ttl = 0 then defaultTTL else ttl
  (none, redisSetCmd st now key value ttl')

/-- The rate-limit policy fields consulted by `checkRateLimit`
(validator/tags.go). -/
structure RateLimitConfig : Type where
  windowSize : Int
  maxRequests : Int
deriving DecidableEq

/-- The `RateLimitInfo` record produced by `checkRateLimit`; `retryAt =
none` models the zero `time.Time`. -/
structure RateLimitInfo : Type where
  key : String
  limit : Int
  remaining : Int
  resetTime : Int
  retryAt : Option Int
  windowSize : Int
deriving DecidableEq

/-- `time.Time.Truncate`: round down to a multiple of `d` (for
nonpositive `d` the instant is unchanged). -/
def truncateTime (t d : Int) : Int := if d ≤ 0 then t else t - t % d

/-- `checkRateLimit` (validator/tags.go), abstracted over the outcome of
the store's `Increment` call (`.error` models `err != nil`): on an
increment error the request is allowed with a full remaining quota and
a zero `RetryAt`; otherwise `remaining = max(0, maxRequests - count)`
and the request is allowed iff `count ≤ maxRequests`.  The function has
no logger in scope: its entire observable output is the returned pair. -/
def checkRateLimit (incrementResult : Except CacheError Int) (now : Int) (key : String)
    (cfg : RateLimitConfig) : RateLimitInfo × Bool :=
  let windowStart := truncateTime now cfg.windowSize
  let resetTime := windowStart + cfg.windowSize
  match incrementResult with
  | .error _ =>
    (⟨key, cfg.maxRequests, cfg.maxRequests, resetTime, none, cfg.windowSize⟩, true)
  | .ok current =>
    let remaining := cfg.maxRequests - current
    let remaining := if remaining < 0 then 0 else remaining
    (⟨key, cfg.maxRequests, remaining, resetTime, some resetTime, cfg.windowSize⟩,
      decide (current ≤ cfg.maxRequests))

/-- `checkRateLimit` backed by the memory store: the middleware calls
`cache.Increment(ctx, key, 1, cfg.WindowSize)` and feeds the outcome to
the decision logic. -/
def checkRateLimitMem (m : MemoryCache) (now : Int) (key : String) (cfg : RateLimitConfig) :
    (RateLimitInfo × Bool) × MemoryCache :=
  let step := memIncrement m now key 1 cfg.windowSize
  (checkRateLimit step.1 now key cfg, step.2)

/-- Run a sequence of memory-backed rate-limit checks at the given
instants, collecting each check's `(allowed, remaining)`. -/
def rateLimitRunMem (m : MemoryCache) (key : String) (cfg : RateLimitConfig) :
    List Int → List (Bool × Int) × MemoryCache
  | [] => ([], m)
  | t :: ts =>
    let step := checkRateLimitMem m t key cfg
    let rest := rateLimitRunMem step.2 key cfg ts
    ((step.1.2, step.1.1.remaining) :: rest.1, rest.2)

/-! ### SHA-256 (crypto/sha256), hex encoding, and `GenerateCacheKey` -/

/-- 2^32, the modulus of SHA-256 word arithmetic. -/
def m32 : Nat := 4294967296

/-- Right rotation of a 32-bit word. -/
def rotr32 (n x : Nat) : Nat := x / 2 ^ n + x % 2 ^ n * 2 ^ (32 - n)

/-- Right shift of a 32-bit word. -/
def shr32 (n x : Nat) : Nat := x / 2 ^ n

/-- Bitwise complement of a 32-bit word. -/
def bnot32 (x : Nat) : Nat := Nat.xor x (m32 - 1)

/-- SHA-256 `Ch` function. -/
def shaCh (x y z : Nat) : Nat := Nat.xor (Nat.land x y) (Nat.land (bnot32 x) z)

/-- SHA-256 `Maj` function. -/
def shaMaj (x y z : Nat) : Nat :=
  Nat.xor (Nat.xor (Nat.land x y) (Nat.land x z)) (Nat.land y z)

/-- SHA-256 Σ₀. -/
def bigSigma0 (x : Nat) : Nat := Nat.xor (Nat.xor (rotr32 2 x) (rotr32 13 x)) (rotr32 22 x)

/-- SHA-256 Σ₁. -/
def bigSigma1 (x : Nat) : Nat := Nat.xor (Nat.xor (rotr32 6 x) (rotr32 11 x)) (rotr32 25 x)

/-- SHA-256 σ₀. -/
def smallSigma0 (x : Nat) : Nat := Nat.xor (Nat.xor (rotr32 7 x) (rotr32 18 x)) (shr32 3 x)

/-- SHA-256 σ₁. -/
def smallSigma1 (x : Nat) : Nat := Nat.xor (Nat.xor (rotr32 17 x) (rotr32 19 x)) (shr32 10 x)

/-- The SHA-256 round constants (decimal). -/
def sha256K : List Nat :=
  [1116352408, 1899447441, 3049323471, 3921009573, 961987163, 1508970993, 2453635748,
   2870763221, 3624381080, 310598401, 607225278, 1426881987, 1925078388, 2162078206,
   2614888103, 3248222580, 3835390401, 4022224774, 264347078, 604807628, 770255983,
   1249150122, 1555081692, 1996064986, 2554220882, 2821834349, 2952996808, 3210313671,
   3336571891, 3584528711, 113926993, 338241895, 666307205, 773529912, 1294757372,
   1396182291, 1695183700, 1986661051, 2177026350, 2456956037, 2730485921, 2820302411,
   3259730800, 3345764771, 3516065817, 3600352804, 4094571909, 275423344, 430227734,
   506948616, 659060556, 883997877, 958139571, 1322822218, 1537002063, 1747873779,
   1955562222, 2024104815, 2227730452, 2361852424, 2428436474, 2756734187, 3204031479,
   3329325298]

/-- The SHA-256 initial hash value (decimal). -/
def sha256H0 : List Nat :=
  [1779033703, 3144134277, 1013904242, 2773480762, 1359893119, 2600822924, 528734635,
   1541459225]

/-- Big-endian byte decomposition of a value into `w` bytes. -/
def beBytes : Nat → Nat → Bytes
  | 0, _ => []
  | w + 1, v => beBytes w (v / 256) ++ [v % 256]

/-- SHA-256 padding: append `0x80`, zero bytes up to 56 mod 64, then the
bit length as 8 big-endian bytes. -/
def sha256Pad (msg : Bytes) : Bytes :=
  let len := msg.length
  let zeros := (119 - len % 64) % 64
  msg ++ 128 :: List.replicate zeros 0 ++ beBytes 8 (8 * len)

/-- Group bytes into big-endian 32-bit words. -/
def toWords : Bytes → List Nat
  | b0 :: b1 :: b2 :: b3 :: rest => (((b0 * 256 + b1) * 256 + b2) * 256 + b3) :: toWords rest
  | _ => []

/-- Split a word list into blocks of 16 words (`count` = block count). -/
def chunkBlocks : Nat → List Nat → List (List Nat)
  | 0, _ => []
  | count + 1, ws => ws.take 16 :: chunkBlocks count (ws.drop 16)

/-- Extend a message schedule by one word. -/
def wStep (w : List Nat) : List Nat :=
  let n := w.length
  w ++ [(smallSigma1 (w.getD (n - 2) 0) + w.getD (n - 7) 0 + smallSigma0 (w.getD (n - 15) 0)
          + w.getD (n - 16) 0) % m32]

/-- The 64-word message schedule of a 16-word block. -/
def fullW (block : List Nat) : List Nat := wStep^[48] block

/-- One SHA-256 compression round on the state `[a,b,c,d,e,f,g,h]`. -/
def shaRound (st : List Nat) (kw : Nat × Nat) : List Nat :=
  match st with
  | [a, b, c, d, e, f, g, h] =>
    let t1 := (h + bigSigma1 e + shaCh e f g + kw.1 + kw.2) % m32
    let t2 := (bigSigma0 a + shaMaj a b c) % m32
    [(t1 + t2) % m32, a, b, c, (d + t1) % m32, e, f, g]
  | _ => st

/-- The SHA-256 compression function on one block. -/
def sha256Compress (h : List Nat) (block : List Nat) : List Nat :=
  let st := (sha256K.zip (fullW block)).foldl shaRound h
  (h.zip st).map fun p => (p.1 + p.2) % m32

/-- SHA-256 of a byte string (crypto/sha256 `Sum`). -/
def sha256 (msg : Bytes) : Bytes :=
  let padded := sha256Pad msg
  let hs := (chunkBlocks (padded.length / 64) (toWords padded)).foldl sha256Compress sha256H0
  (hs.map (beBytes 4)).flatten

/-- Lowercase hex character of a nibble. -/
def hexDigitChar (n : Nat) : Char :=
  if n < 10 then Char.ofNat (48 + n) else Char.ofNat (87 + n)

/-- Characters of the lowercase hex encoding of bytes. -/
def hexChars (bs : Bytes) : List Char :=
  (bs.map fun b => [hexDigitChar (b / 16), hexDigitChar (b % 16)]).flatten

/-- Lowercase hex encoding of bytes (`hex.EncodeToString`). -/
def hexEncode (bs : Bytes) : String := ⟨hexChars bs⟩

/-- `GenerateCacheKey` (pkg/cache/utils.go): SHA-256 over the query
bytes followed by each filter key and its value in sorted key order
(`sort.Strings`); the key is `"search:"` plus the first 16 characters of
the hex digest.  The filter map is embedded as an association list with
distinct keys; `alookup` plays the role of the Go map read `filters[k]`. -/
def generateCacheKey (query : String) (filters : List (String × String)) : String :=
  let keys := List.insertionSort (fun a b => strLe a b = true) (filters.map Prod.fst)
  let msg := strBytes query ++
    (keys.map fun k => strBytes k ++ strBytes ((alookup filters k).getD "")).flatten
  "search:" ++ ⟨(hexChars (sha256 msg)).take 16⟩

/-- The serialization of `n` concurrent `Increment(key, 1, ttl)` calls
on the memory backend: the whole method body runs under the store's
mutex, so any concurrent execution is one of these serial orders; with
every call at the same instant all orders are this one sequence.
Returns the values handed back to the callers. -/
def memIncrSeq (m : MemoryCache) (now : Int) (key : String) (ttl : Int) :
    Nat → List Int × MemoryCache
  | 0 => ([], m)
  | n + 1 =>
    let step := memIncrement m now key 1 ttl
    match step.1 with
    | .ok v =>
      let rest := memIncrSeq step.2 now key ttl n
      (v :: rest.1, rest.2)
    | .error _ => ([], step.2)

/-- The serialization of `n` concurrent `Increment(key, 1, ttl)` calls
on the networked backend: each call is a single atomic pipeline. -/
def redisIncrSeq (st : RedisState) (defaultTTL : Int) (now : Int) (key : String) (ttl : Int) :
    Nat → List Int × RedisState
  | 0 => ([], st)
  | n + 1 =>
    let step := redisIncrement st defaultTTL now key 1 ttl
    match step.1 with
    | .ok v =>
      let rest := redisIncrSeq step.2 defaultTTL now key ttl n
      (v :: rest.1, rest.2)
    | .error _ => ([], step.2)

/-! ### Helper lemmas -/

theorem lsbDigits_lt_ten : ∀ fuel n d, d ∈ lsbDigits fuel n → d < 10 := by
  intro fuel
  induction fuel with
  | zero => intro n d h; simp [lsbDigits] at h
  | succ f ih =>
    intro n d h
    simp only [lsbDigits] at h
    by_cases hn : n < 10
    · simp [hn] at h; omega
    · simp [hn] at h
      rcases h with h | h
      · omega
      · exact ih _ _ h

theorem lsbDigits_ne_nil (fuel n : Nat) (h : 0 < fuel) : lsbDigits fuel n ≠ [] := by
  match fuel, h with
  | f + 1, _ =>
    simp only [lsbDigits]
    by_cases hn : n < 10 <;> simp [hn]

theorem lsbDigits_fuel_irrel : ∀ n f₁ f₂, n < f₁ → n < f₂ → lsbDigits f₁ n = lsbDigits f₂ n := by
  intro n
  induction n using Nat.strong_induction_on with
  | _ n ih =>
    intro f₁ f₂ h₁ h₂
    match f₁, f₂, h₁, h₂ with
    | g₁ + 1, g₂ + 1, _, _ =>
      simp only [lsbDigits]
      by_cases hn : n < 10
      · simp [hn]
      · simp only [hn, if_false]
        have hd : n / 10 < n := Nat.div_lt_self (by omega) (by omega)
        rw [ih (n / 10) hd g₁ g₂ (by omega) (by omega)]

theorem natDigits_lt_ten {n : Nat} (h : n < 10) : natDigits n = [n + 48] := by
  simp [natDigits, lsbDigits, h]

theorem natDigits_ten_le {n : Nat} (h : 10 ≤ n) :
    natDigits n = natDigits (n / 10) ++ [n % 10 + 48] := by
  have hd : n / 10 < n := Nat.div_lt_self (by omega) (by omega)
  have h1 : lsbDigits (n + 1) n = n % 10 :: lsbDigits n (n / 10) := by
    simp [lsbDigits, Nat.not_lt.mpr h]
  have h2 : lsbDigits n (n / 10) = lsbDigits (n / 10 + 1) (n / 10) :=
    lsbDigits_fuel_irrel (n / 10) n (n / 10 + 1) hd (by omega)
  simp only [natDigits, h1, h2, List.reverse_cons, List.map_append, List.map_cons,
    List.map_nil]

theorem natDigits_mem_bound : ∀ n d, d ∈ natDigits n → 48 ≤ d ∧ d ≤ 57 := by
  intro n d h
  simp only [natDigits, List.mem_map, List.mem_reverse] at h
  obtain ⟨e, he, rfl⟩ := h
  have := lsbDigits_lt_ten _ _ _ he
  omega

theorem natDigits_ne_nil (n : Nat) : natDigits n ≠ [] := by
  simp only [natDigits, ne_eq, List.map_eq_nil_iff, List.reverse_eq_nil_iff]
  exact lsbDigits_ne_nil _ _ (by omega)

theorem parseDigitsAux_append (acc : Nat) (ds es : Bytes) :
    parseDigitsAux acc (ds ++ es) =
      (parseDigitsAux acc ds).bind fun a => parseDigitsAux a es := by
  induction ds generalizing acc with
  | nil => simp [parseDigitsAux]
  | cons b bs ih =>
    simp only [List.cons_append, parseDigitsAux]
    cases digitVal b with
    | none => simp
    | some d => simp [ih]

theorem digitVal_digit {d : Nat} (h : d < 10) : digitVal (d + 48) = some d := by
  have h48 : d + 48 - 48 = d := by omega
  simp [digitVal, show 48 ≤ d + 48 ∧ d + 48 ≤ 57 by omega, h48]

theorem parseDigitsAux_natDigits : ∀ n acc,
    parseDigitsAux acc (natDigits n) = some (acc * 10 ^ (natDigits n).length + n) := by
  intro n
  induction n using Nat.strong_induction_on with
  | _ n ih =>
    intro acc
    by_cases hn : n < 10
    · rw [natDigits_lt_ten hn]
      simp [parseDigitsAux, digitVal_digit hn]
    · have h10 : 10 ≤ n := by omega
      have hd : n / 10 < n := Nat.div_lt_self (by omega) (by omega)
      rw [natDigits_ten_le h10, parseDigitsAux_append, ih (n / 10) hd acc]
      have hm : n % 10 < 10 := by omega
      simp only [Option.some_bind, parseDigitsAux, digitVal_digit hm]
      congr 1
      have hlen : (natDigits (n / 10) ++ [n % 10 + 48]).length =
          (natDigits (n / 10)).length + 1 := by simp
      rw [hlen]
      have hpow : acc * 10 ^ ((natDigits (n / 10)).length + 1) =
          acc * 10 ^ (natDigits (n / 10)).length * 10 := by ring
      rw [hpow]
      set q := acc * 10 ^ (natDigits (n / 10)).length with hq
      omega

theorem parseDigits_natDigits (n : Nat) : parseDigits (natDigits n) = some n := by
  obtain ⟨b, bs, hb⟩ : ∃ b bs, natDigits n = b :: bs := by
    cases h : natDigits n with
    | nil => exact absurd h (natDigits_ne_nil n)
    | cons b bs => exact ⟨b, bs, rfl⟩
  rw [hb]
  show parseDigitsAux 0 (b :: bs) = some n
  rw [← hb, parseDigitsAux_natDigits]
  simp only [Nat.zero_mul, Nat.zero_add]

theorem parseInt64_formatInt64 (v : Int) (h₁ : -(2 ^ 63) ≤ v) (h₂ : v ≤ 2 ^ 63 - 1) :
    parseInt64 (formatInt64 v) = some v := by
  by_cases hv : v < 0
  · simp only [formatInt64, if_pos hv, parseInt64, if_true]
    rw [parseDigits_natDigits]
    show (if v.natAbs ≤ 2 ^ 63 then some (-(v.natAbs : Int)) else none) = some v
    rw [if_pos (show v.natAbs ≤ 2 ^ 63 by omega)]
    congr 1
    omega
  · simp only [formatInt64, if_neg hv]
    obtain ⟨b, bs, hb⟩ : ∃ b bs, natDigits v.toNat = b :: bs := by
      cases h : natDigits v.toNat with
      | nil => exact absurd h (natDigits_ne_nil _)
      | cons b bs => exact ⟨b, bs, rfl⟩
    have hbd : 48 ≤ b ∧ b ≤ 57 := natDigits_mem_bound _ b (hb ▸ List.mem_cons_self b bs)
    rw [hb]
    simp only [parseInt64]
    rw [if_neg (show ¬ b = 45 by omega), if_neg (show ¬ b = 43 by omega),
      show b :: bs = natDigits v.toNat from hb.symm, parseDigits_natDigits]
    show (if v.toNat ≤ 2 ^ 63 - 1 then some ((v.toNat : Int)) else none) = some v
    rw [if_pos (show v.toNat ≤ 2 ^ 63 - 1 by omega)]
    congr 1
    omega

theorem formatInt64_ne_nil (v : Int) : formatInt64 v ≠ [] := by
  by_cases hv : v < 0 <;> simp [formatInt64, hv, natDigits_ne_nil]

theorem wrap64_eq (x : Int) (h₁ : -(2 ^ 63) ≤ x) (h₂ : x ≤ 2 ^ 63 - 1) : wrap64 x = x := by
  simp only [wrap64]
  omega

theorem alookup_aset_self {α : Type} (l : List (String × α)) (k : String) (v : α) :
    alookup (aset l k v) k = some v := by
  induction l with
  | nil => simp [aset, alookup]
  | cons p rest ih =>
    simp only [aset]
    by_cases h : p.1 = k
    · simp [h, alookup]
    · obtain ⟨pk, pv⟩ := p
      simp only at h
      simp [h, alookup, aset, ih]

theorem alookup_adel_self {α : Type} (l : List (String × α)) (k : String) :
    alookup (adel l k) k = none := by
  induction l with
  | nil => simp [adel, alookup]
  | cons p rest ih =>
    obtain ⟨pk, pv⟩ := p
    simp only [adel]
    by_cases h : pk = k
    · simp [h, ih]
    · simp [h, alookup, ih]

theorem charsLe_total : ∀ as bs, charsLe as bs = true ∨ charsLe bs as = true := by
  intro as
  induction as with
  | nil => intro bs; left; simp [charsLe]
  | cons a as ih =>
    intro bs
    cases bs with
    | nil => right; simp [charsLe]
    | cons b bs =>
      simp only [charsLe]
      rcases Nat.lt_trichotomy a.toNat b.toNat with h | h | h
      · left; simp [h]
      · simp [h, Nat.lt_irrefl]
        exact ih bs
      · right; simp [h]

theorem charsLe_trans : ∀ as bs cs, charsLe as bs = true → charsLe bs cs = true →
    charsLe as cs = true := by
  intro as
  induction as with
  | nil => intro bs cs _ _; simp [charsLe]
  | cons a as ih =>
    intro bs cs h₁ h₂
    cases bs with
    | nil => simp [charsLe] at h₁
    | cons b bs =>
      cases cs with
      | nil => simp [charsLe] at h₂
      | cons c cs =>
        simp only [charsLe] at h₁ h₂ ⊢
        by_cases hab : a.toNat < b.toNat
        · by_cases hbc : b.toNat < c.toNat
          · rw [if_pos (show a.toNat < c.toNat by omega)]
          · by_cases hcb : c.toNat < b.toNat
            · rw [if_neg hbc, if_pos hcb] at h₂
              exact absurd h₂ (by simp)
            · rw [if_pos (show a.toNat < c.toNat by omega)]
        · by_cases hba : b.toNat < a.toNat
          · rw [if_neg hab, if_pos hba] at h₁
            exact absurd h₁ (by simp)
          · rw [if_neg hab, if_neg hba] at h₁
            by_cases hbc : b.toNat < c.toNat
            · rw [if_pos (show a.toNat < c.toNat by omega)]
            · by_cases hcb : c.toNat < b.toNat
              · rw [if_neg hbc, if_pos hcb] at h₂
                exact absurd h₂ (by simp)
              · rw [if_neg hbc, if_neg hcb] at h₂
                rw [if_neg (show ¬ a.toNat < c.toNat by omega),
                  if_neg (show ¬ c.toNat < a.toNat by omega)]
                exact ih bs cs h₁ h₂

theorem charsLe_antisymm : ∀ as bs, charsLe as bs = true → charsLe bs as = true →
    as = bs := by
  intro as
  induction as with
  | nil =>
    intro bs h₁ h₂
    cases bs with
    | nil => rfl
    | cons b bs => simp [charsLe] at h₂
  | cons a as ih =>
    intro bs h₁ h₂
    cases bs with
    | nil => simp [charsLe] at h₁
    | cons b bs =>
      simp only [charsLe] at h₁ h₂
      by_cases hab : a.toNat < b.toNat
      · rw [if_neg (show ¬ b.toNat < a.toNat by omega), if_pos hab] at h₂
        exact absurd h₂ (by simp)
      · by_cases hba : b.toNat < a.toNat
        · rw [if_neg hab, if_pos hba] at h₁
          exact absurd h₁ (by simp)
        · rw [if_neg hab, if_neg hba] at h₁
          rw [if_neg hba, if_neg hab] at h₂
          have hn : a.toNat = b.toNat := by omega
          have hc : a = b := Char.ext (UInt32.ext hn)
          subst hc
          rw [ih bs h₁ h₂]

theorem alookup_eq_none {α : Type} (l : List (String × α)) (k : String) :
    alookup l k = none ↔ k ∉ l.map Prod.fst := by
  induction l with
  | nil => simp [alookup]
  | cons p rest ih =>
    obtain ⟨pk, pv⟩ := p
    by_cases h : pk = k
    · subst h
      simp [alookup]
    · simp only [alookup, if_neg h, List.map_cons, List.mem_cons, ih]
      constructor
      · intro hk hor
        rcases hor with rfl | hm
        · exact h rfl
        · exact hk hm
      · intro hk hm
        exact hk (Or.inr hm)

theorem alookup_some_mem {α : Type} {l : List (String × α)} {k : String} {v : α}
    (h : alookup l k = some v) : (k, v) ∈ l := by
  induction l with
  | nil => simp [alookup] at h
  | cons p rest ih =>
    obtain ⟨pk, pv⟩ := p
    simp only [alookup] at h
    by_cases hk : pk = k
    · rw [if_pos hk] at h
      subst hk
      simp only [Option.some_inj] at h
      subst h
      exact List.mem_cons_self _ _
    · rw [if_neg hk] at h
      exact List.mem_cons_of_mem _ (ih h)

theorem mem_alookup {α : Type} {l : List (String × α)} {k : String} {v : α}
    (h : (k, v) ∈ l) (hn : (l.map Prod.fst).Nodup) : alookup l k = some v := by
  induction l with
  | nil => simp at h
  | cons p rest ih =>
    obtain ⟨pk, pv⟩ := p
    simp only [List.map_cons, List.nodup_cons] at hn
    rcases List.mem_cons.mp h with h₁ | h₁
    · have hk : k = pk := congrArg Prod.fst h₁
      have hv : v = pv := congrArg Prod.snd h₁
      subst hk
      subst hv
      simp [alookup]
    · have hk : pk ≠ k := by
        intro he
        subst he
        exact hn.1 (List.mem_map.mpr ⟨(pk, v), h₁, rfl⟩)
      simp only [alookup, if_neg hk]
      exact ih h₁ hn.2

theorem alookup_perm {α : Type} {l₁ l₂ : List (String × α)} (hp : l₁.Perm l₂)
    (hn : (l₁.map Prod.fst).Nodup) (k : String) : alookup l₁ k = alookup l₂ k := by
  have hn₂ : (l₂.map Prod.fst).Nodup := (hp.map Prod.fst).nodup_iff.mp hn
  cases h : alookup l₁ k with
  | some v => exact (mem_alookup (hp.mem_iff.mp (alookup_some_mem h)) hn₂).symm
  | none =>
    symm
    rw [alookup_eq_none] at h ⊢
    intro hk
    exact h ((hp.map Prod.fst).mem_iff.mpr hk)

/-- The Go string order as a binary relation. -/
instance strLeIsTotal : IsTotal String fun a b => strLe a b = true :=
  ⟨fun a b => charsLe_total a.data b.data⟩

instance strLeIsTrans : IsTrans String fun a b => strLe a b = true :=
  ⟨fun a b c => charsLe_trans a.data b.data c.data⟩

instance strLeIsAntisymm : IsAntisymm String fun a b => strLe a b = true :=
  ⟨fun a b h₁ h₂ => by
    have := charsLe_antisymm a.data b.data h₁ h₂
    cases a; cases b; simp_all⟩

theorem aset_aset {α : Type} (l : List (String × α)) (k : String) (a b : α) :
    aset (aset l k a) k b = aset l k b := by
  induction l with
  | nil => simp [aset]
  | cons p rest ih =>
    obtain ⟨pk, pv⟩ := p
    simp only [aset]
    by_cases h : pk = k
    · simp [h, aset]
    · simp [h, aset, ih]

theorem formatInt64_length_pos (v : Int) : 0 < (formatInt64 v).length :=
  List.length_pos.mpr (formatInt64_ne_nil v)

theorem memIncrement_fresh (m : MemoryCache) (now : Int) (key : String) (ttl : Int)
    (hlook : alookup m.data key = none) (httl : 0 < ttl) :
    memIncrement m now key 1 ttl =
      (.ok 1, { m with data := aset m.data key ⟨formatInt64 1, some (now + ttl), now⟩ }) := by
  simp only [memIncrement, hlook]
  rw [if_neg (show ¬ ttl = 0 by omega)]
  simp only [computeExpiry, if_pos httl]
  norm_num [wrap64]

theorem memIncrement_on_entry (m : MemoryCache) (now : Int) (key : String) (ttl : Int)
    (v e cAt : Int) (hlook : alookup m.data key = some ⟨formatInt64 v, some e, cAt⟩)
    (hne : ¬ now > e) (httl : 0 < ttl)
    (hlo : -(2 ^ 63) ≤ v) (hhi : v + 1 ≤ 2 ^ 63 - 1) :
    memIncrement m now key 1 ttl =
      (.ok (v + 1),
        { m with data := aset m.data key ⟨formatInt64 (v + 1), some (now + ttl), now⟩ }) := by
  simp only [memIncrement, hlook]
  have hexp : isExpired now ⟨formatInt64 v, some e, cAt⟩ = false := by
    simp [isExpired, hne]
  have hlen : (formatInt64 v).length > 0 := formatInt64_length_pos v
  rw [hexp]
  simp only [Bool.false_eq_true, if_false, if_pos hlen,
    parseInt64_formatInt64 v hlo (by omega)]
  rw [if_neg (show ¬ ttl = 0 by omega)]
  simp only [computeExpiry, if_pos httl]
  rw [wrap64_eq (v + 1) (by omega) (by omega)]

theorem memIncrSeq_loop (now : Int) (key : String) (ttl : Int) (httl : 0 < ttl) :
    ∀ (n : Nat) (m : MemoryCache) (v cAt : Int), 0 ≤ v → v + n ≤ 2 ^ 63 - 1 →
    alookup m.data key = some ⟨formatInt64 v, some (now + ttl), cAt⟩ →
    (memIncrSeq m now key ttl n).1 = (List.range n).map (fun i : Nat => v + (i : Int) + 1) ∧
      alookup (memIncrSeq m now key ttl n).2.data key =
        some ⟨formatInt64 (v + n), some (now + ttl), if n = 0 then cAt else now⟩ := by
  intro n
  induction n with
  | zero =>
    intro m v cAt h₀ h₁ hl
    simp [memIncrSeq, hl]
  | succ k ih =>
    intro m v cAt h₀ h₁ hl
    have hcast : ((k : Int) + 1) = ((k + 1 : Nat) : Int) := by push_cast; ring
    have hstep := memIncrement_on_entry m now key ttl v (now + ttl) cAt hl
      (by omega) httl (by omega) (by push_cast at h₁ ⊢; omega)
    simp only [memIncrSeq, hstep]
    have hlook' : alookup
        ({ m with data := aset m.data key ⟨formatInt64 (v + 1), some (now + ttl), now⟩ }
          : MemoryCache).data key =
        some ⟨formatInt64 (v + 1), some (now + ttl), now⟩ := alookup_aset_self _ _ _
    have ihh := ih _ (v + 1) now (by omega) (by push_cast at h₁ ⊢; omega) hlook'
    refine ⟨?_, ?_⟩
    · rw [ihh.1, List.range_succ_eq_map, List.map_cons, List.map_map]
      congr 1
      · push_cast
        ring
      · apply List.map_congr_left
        intro i _
        simp only [Function.comp_apply]
        push_cast
        ring
    · rw [ihh.2]
      have : v + 1 + (k : Int) = v + ((k + 1 : Nat) : Int) := by push_cast; ring
      rw [this]
      simp

theorem redisIncrement_fresh (st : RedisState) (dTTL now : Int) (key : String) (ttl : Int)
    (hlook : alookup st.data key = none) (httl : 0 < ttl) :
    redisIncrement st dTTL now key 1 ttl =
      (.ok 1, ⟨aset st.data key ⟨formatInt64 1, some (now + ttl)⟩⟩) := by
  simp only [redisIncrement, redisIncrBy, hlook]
  rw [if_pos httl]
  simp only [redisExpire, alookup_aset_self]
  simp only [redisLive, if_pos httl, aset_aset, if_true]

theorem redisIncrement_on_entry (st : RedisState) (dTTL now : Int) (key : String) (ttl : Int)
    (v e : Int) (hlook : alookup st.data key = some ⟨formatInt64 v, some e⟩)
    (hlive : now < e) (httl : 0 < ttl)
    (hlo : -(2 ^ 63) ≤ v) (hhi : v + 1 ≤ 2 ^ 63 - 1) :
    redisIncrement st dTTL now key 1 ttl =
      (.ok (v + 1), ⟨aset st.data key ⟨formatInt64 (v + 1), some (now + ttl)⟩⟩) := by
  have hlv : redisLive now (⟨formatInt64 v, some e⟩ : RedisEntry) = true := by
    simp [redisLive, hlive]
  simp only [redisIncrement, redisIncrBy, hlook, hlv, if_true,
    parseInt64_formatInt64 v hlo (by omega)]
  rw [if_neg (show ¬ (v + 1 < -(2 ^ 63) ∨ v + 1 > 2 ^ 63 - 1) by omega)]
  rw [if_pos httl]
  simp only [redisExpire, alookup_aset_self, hlv]
  have hlv' : redisLive now (⟨formatInt64 (v + 1), some e⟩ : RedisEntry) = true := by
    simp [redisLive, hlive]
  simp only [hlv', if_true, if_pos httl, aset_aset]

theorem redisIncrSeq_loop (dTTL now : Int) (key : String) (ttl : Int) (httl : 0 < ttl) :
    ∀ (n : Nat) (st : RedisState) (v : Int), 0 ≤ v → v + n ≤ 2 ^ 63 - 1 →
    alookup st.data key = some ⟨formatInt64 v, some (now + ttl)⟩ →
    (redisIncrSeq st dTTL now key ttl n).1 = (List.range n).map (fun i : Nat => v + (i : Int) + 1) ∧
      alookup (redisIncrSeq st dTTL now key ttl n).2.data key =
        some ⟨formatInt64 (v + n), some (now + ttl)⟩ := by
  intro n
  induction n with
  | zero =>
    intro st v h₀ h₁ hl
    simp [redisIncrSeq, hl]
  | succ k ih =>
    intro st v h₀ h₁ hl
    have hstep := redisIncrement_on_entry st dTTL now key ttl v (now + ttl) hl
      (by omega) httl (by omega) (by push_cast at h₁ ⊢; omega)
    simp only [redisIncrSeq, hstep]
    have hlook' : alookup (⟨aset st.data key ⟨formatInt64 (v + 1), some (now + ttl)⟩⟩
        : RedisState).data key = some ⟨formatInt64 (v + 1), some (now + ttl)⟩ :=
      alookup_aset_self _ _ _
    have ihh := ih _ (v + 1) (by omega) (by push_cast at h₁ ⊢; omega) hlook'
    refine ⟨?_, ?_⟩
    · rw [ihh.1, List.range_succ_eq_map, List.map_cons, List.map_map]
      congr 1
      · push_cast
        ring
      · apply List.map_congr_left
        intro i _
        simp only [Function.comp_apply]
        push_cast
        ring
    · rw [ihh.2]
      have : v + 1 + (k : Int) = v + ((k + 1 : Nat) : Int) := by push_cast; ring
      rw [this]

/-! ### Claim theorems -/

/-- Claim C1 (code bug): contrary to the TTL-once invariant, both
backends refresh the counter's expiry on every `Increment`.  On the
memory backend, a key created at instant 0 with ttl 1000 carries expiry
1000, and a second increment at instant 500 moves the expiry to 1500;
the Redis backend's pipelined `EXPIRE` does the same. -/
theorem c1_increment_refreshes_ttl :
    ((alookup (memIncrement (⟨[], ⟨0⟩⟩ : MemoryCache) 0 "k" 1 1000).2.data "k").map
        MemoryItem.expiresAt = some (some 1000) ∧
      (alookup (memIncrement (memIncrement (⟨[], ⟨0⟩⟩ : MemoryCache) 0 "k" 1 1000).2
          500 "k" 1 1000).2.data "k").map MemoryItem.expiresAt = some (some 1500)) ∧
    ((alookup (redisIncrement (⟨[]⟩ : RedisState) 0 0 "k" 1 1000).2.data "k").map
        RedisEntry.expiresAt = some (some 1000) ∧
      (alookup (redisIncrement (redisIncrement (⟨[]⟩ : RedisState) 0 0 "k" 1 1000).2
          0 500 "k" 1 1000).2.data "k").map RedisEntry.expiresAt = some (some 1500)) := by
  decide

/-- Claim C2: on a successful store increment returning `count`, the
rate-limit decision is `allowed = (count ≤ maxRequests)` with
`remaining = max 0 (maxRequests - count)`; with `maxRequests = 3` and a
1000-unit window, five memory-backed checks at instants 0,1,2,3 and
2000 yield allowed `{t,t,t,f,t}` with remaining `{2,1,0,0,2}`. -/
theorem c2_rate_limit_decision :
    (∀ (current now : Int) (key : String) (cfg : RateLimitConfig),
      (checkRateLimit (.ok current) now key cfg).2 = decide (current ≤ cfg.maxRequests) ∧
      (checkRateLimit (.ok current) now key cfg).1.remaining =
        max 0 (cfg.maxRequests - current)) ∧
    (rateLimitRunMem ⟨[], ⟨0⟩⟩ "k" ⟨1000, 3⟩ [0, 1, 2, 3, 2000]).1 =
      [(true, 2), (true, 1), (true, 0), (false, 0), (true, 2)] := by
  constructor
  · intro current now key cfg
    refine ⟨rfl, ?_⟩
    simp only [checkRateLimit]
    omega
  · decide

/-- Claim C3 (code bug): when the store's `Increment` errors,
`checkRateLimit` allows the request with `remaining = maxRequests`
(fail-open), but the error is discarded, not surfaced: the function's
entire output is independent of which error occurred, and it has no
observability sink in scope. -/
theorem c3_fail_open_discards_error :
    ∀ (e : CacheError) (now : Int) (key : String) (cfg : RateLimitConfig),
      (checkRateLimit (.error e) now key cfg).2 = true ∧
      (checkRateLimit (.error e) now key cfg).1.remaining = cfg.maxRequests ∧
      ∀ e' : CacheError,
        checkRateLimit (.error e) now key cfg = checkRateLimit (.error e') now key cfg := by
  intro e now key cfg
  exact ⟨rfl, rfl, fun e' => rfl⟩

/-- Claim C4: `n` serialized `Increment(key, 1, ttl)` calls on a fresh
key at one instant (each call is atomic: the memory backend holds its
mutex for the whole method and the Redis backend issues one pipeline)
return `1, 2, ..., n` — each value reflecting the call's own effect plus
all prior effects — and leave the counter at exactly `n`, on both
backends. -/
theorem c4_concurrent_increments_linearizable :
    ∀ (m : MemoryCache) (st : RedisState) (dTTL now : Int) (key : String) (ttl : Int)
      (n : Nat),
      alookup m.data key = none → alookup st.data key = none →
      0 < ttl → (n : Int) ≤ 2 ^ 63 - 1 →
      ((memIncrSeq m now key ttl n).1 =
          (List.range n).map (fun i : Nat => (i : Int) + 1) ∧
        ∀ item, alookup (memIncrSeq m now key ttl n).2.data key = some item →
          parseInt64 item.value = some (n : Int)) ∧
      ((redisIncrSeq st dTTL now key ttl n).1 =
          (List.range n).map (fun i : Nat => (i : Int) + 1) ∧
        ∀ entry, alookup (redisIncrSeq st dTTL now key ttl n).2.data key = some entry →
          parseInt64 entry.value = some (n : Int)) := by
  intro m st dTTL now key ttl n hm hst httl hn
  have htail : List.map (fun i : Nat => (1 : Int) + (i : Int) + 1) =
      List.map ((fun i : Nat => (i : Int) + 1) ∘ Nat.succ) := by
    funext l
    apply List.map_congr_left
    intro i _
    simp only [Function.comp_apply]
    push_cast
    ring
  constructor
  · match n, hn with
    | 0, _ =>
      refine ⟨by simp [memIncrSeq], ?_⟩
      intro item hitem
      rw [show (memIncrSeq m now key ttl 0).2 = m from rfl, hm] at hitem
      exact absurd hitem (by simp)
    | Nat.succ k, hn =>
      have hstep := memIncrement_fresh m now key ttl hm httl
      have hloop := memIncrSeq_loop now key ttl httl k
        ({ m with data := aset m.data key ⟨formatInt64 1, some (now + ttl), now⟩ })
        1 now (show (0 : Int) ≤ 1 by norm_num)
        (show (1 : Int) + (k : Nat) ≤ 2 ^ 63 - 1 by push_cast at hn ⊢; omega)
        (alookup_aset_self _ _ _)
      constructor
      · show (memIncrSeq m now key ttl (k + 1)).1 = _
        simp only [memIncrSeq, hstep]
        rw [hloop.1, congrFun htail (List.range k), List.range_succ_eq_map,
          List.map_cons, List.map_map]
        norm_num
      · intro item hitem
        show parseInt64 item.value = some ((k + 1 : Nat) : Int)
        simp only [memIncrSeq, hstep] at hitem
        rw [hloop.2] at hitem
        have hv : item = ⟨formatInt64 (1 + k), some (now + ttl),
            if k = 0 then now else now⟩ := Option.some_inj.mp hitem.symm
        rw [hv]
        have hc : (1 : Int) + k = ((k + 1 : Nat) : Int) := by push_cast; ring
        rw [hc]
        exact parseInt64_formatInt64 (((k + 1 : Nat) : Int)) (by push_cast; omega)
          (by push_cast at hn ⊢; omega)
  · match n, hn with
    | 0, _ =>
      refine ⟨by simp [redisIncrSeq], ?_⟩
      intro entry hentry
      rw [show (redisIncrSeq st dTTL now key ttl 0).2 = st from rfl, hst] at hentry
      exact absurd hentry (by simp)
    | Nat.succ k, hn =>
      have hstep := redisIncrement_fresh st dTTL now key ttl hst httl
      have hloop := redisIncrSeq_loop dTTL now key ttl httl k
        (⟨aset st.data key ⟨formatInt64 1, some (now + ttl)⟩⟩)
        1 (show (0 : Int) ≤ 1 by norm_num)
        (show (1 : Int) + (k : Nat) ≤ 2 ^ 63 - 1 by push_cast at hn ⊢; omega)
        (alookup_aset_self _ _ _)
      constructor
      · show (redisIncrSeq st dTTL now key ttl (k + 1)).1 = _
        simp only [redisIncrSeq, hstep]
        rw [hloop.1, congrFun htail (List.range k), List.range_succ_eq_map,
          List.map_cons, List.map_map]
        norm_num
      · intro entry hentry
        show parseInt64 entry.value = some ((k + 1 : Nat) : Int)
        simp only [redisIncrSeq, hstep] at hentry
        rw [hloop.2] at hentry
        have hv : entry = ⟨formatInt64 (1 + k), some (now + ttl)⟩ :=
          Option.some_inj.mp hentry.symm
        rw [hv]
        have hc : (1 : Int) + k = ((k + 1 : Nat) : Int) := by push_cast; ring
        rw [hc]
        exact parseInt64_formatInt64 (((k + 1 : Nat) : Int)) (by push_cast; omega)
          (by push_cast at hn ⊢; omega)

/-- Witness for C4: three increments on a fresh key return `[1, 2, 3]`
and leave the counter holding 3, on both backends. -/
theorem c4_witness :
    ((memIncrSeq (⟨[], ⟨0⟩⟩ : MemoryCache) 0 "k" 1000 3).1 = [1, 2, 3] ∧
      ∀ item, alookup (memIncrSeq (⟨[], ⟨0⟩⟩ : MemoryCache) 0 "k" 1000 3).2.data "k" =
        some item → parseInt64 item.value = some 3) ∧
    ((redisIncrSeq (⟨[]⟩ : RedisState) 0 0 "k" 1000 3).1 = [1, 2, 3] ∧
      ∀ entry, alookup (redisIncrSeq (⟨[]⟩ : RedisState) 0 0 "k" 1000 3).2.data "k" =
        some entry → parseInt64 entry.value = some 3) := by
  have h := c4_concurrent_increments_linearizable ⟨[], ⟨0⟩⟩ ⟨[]⟩ 0 0 "k" 1000 3
    rfl rfl (by norm_num) (by norm_num)
  refine ⟨⟨?_, h.1.2⟩, ⟨?_, h.2.2⟩⟩
  · rw [h.1.1]; decide
  · rw [h.2.1]; decide

/-- Claim C5: on the memory backend, `Get` of an absent key and `Get`
of a present-but-expired (not yet swept) key both return the same
`ErrKeyNotFound`. -/
theorem c5_miss_and_expired_indistinguishable :
    ∀ (m : MemoryCache) (now : Int) (key : String),
      (alookup m.data key = none → memGet m now key = .error .keyNotFound) ∧
      (∀ item e, alookup m.data key = some item → item.expiresAt = some e → now > e →
        memGet m now key = .error .keyNotFound) := by
  intro m now key
  constructor
  · intro h
    simp [memGet, h]
  · intro item e h he hgt
    simp [memGet, h, isExpired, he, hgt]

/-- Witness for C5: after `Set("a", ttl = 1)` at instant 0, reading the
never-set key `"b"` and reading the expired key `"a"` at instant 5 both
yield `ErrKeyNotFound`. -/
theorem c5_witness :
    memGet (memSet (⟨[], ⟨0⟩⟩ : MemoryCache) 0 "a" [49] 1).2 5 "b" =
      .error .keyNotFound ∧
    memGet (memSet (⟨[], ⟨0⟩⟩ : MemoryCache) 0 "a" [49] 1).2 5 "a" =
      .error .keyNotFound := by
  refine ⟨(c5_miss_and_expired_indistinguishable _ 5 "b").1 (by decide),
    (c5_miss_and_expired_indistinguishable _ 5 "a").2 ⟨[49], some 1, 0⟩ 1
      (by decide) (by decide) (by decide)⟩

/-- Counterexample for C6: a key set at instant 0 with ttl 1000 is
expired at instant 2000 (its `Get` is a miss), yet `GetKeys("*")` still
returns it — `GetKeys` performs no expiry check. -/
theorem c6_expired_key_listed :
    memGet (memSet (⟨[], ⟨0⟩⟩ : MemoryCache) 0 "k" [49] 1000).2 2000 "k" =
      .error .keyNotFound ∧
    memGetKeys (memSet (⟨[], ⟨0⟩⟩ : MemoryCache) 0 "k" [49] 1000).2 "*" = ["k"] := by
  decide

/-- Claim C6 (amended): `GetKeys(pattern)` returns exactly the keys of
the `data` map matching the glob pattern — including entries whose
expiry instant has passed but which have not yet been swept. -/
theorem c6_getkeys_returns_all_matching_keys :
    ∀ (m : MemoryCache) (pattern k : String),
      k ∈ memGetKeys m pattern ↔ k ∈ m.data.map Prod.fst ∧ globMatch pattern k = true := by
  intro m pattern k
  rw [memGetKeys]
  rw [(List.perm_insertionSort _ _).mem_iff]
  simp [List.mem_filter]

/-- Claim C7: the cache key derived from a query and a filter map is
independent of the order in which the filter pairs are listed (keys are
sorted before hashing), and changing a filter value changes the key on
the concrete example. -/
theorem c7_cache_key_determinism :
    (∀ (q : String) (f₁ f₂ : List (String × String)),
      f₁.Perm f₂ → (f₁.map Prod.fst).Nodup →
      generateCacheKey q f₁ = generateCacheKey q f₂) ∧
    generateCacheKey "pizza" [("a", "1"), ("b", "2")] ≠
      generateCacheKey "pizza" [("a", "1"), ("b", "3")] := by
  constructor
  · intro q f₁ f₂ hp hn
    have hkeys : List.insertionSort (fun a b => strLe a b = true) (f₁.map Prod.fst) =
        List.insertionSort (fun a b => strLe a b = true) (f₂.map Prod.fst) :=
      List.eq_of_perm_of_sorted
        ((List.perm_insertionSort _ _).trans
          ((hp.map Prod.fst).trans (List.perm_insertionSort _ _).symm))
        (List.sorted_insertionSort _ _) (List.sorted_insertionSort _ _)
    have hmap : ∀ ks : List String,
        (ks.map fun k => strBytes k ++ strBytes ((alookup f₁ k).getD "")) =
          ks.map fun k => strBytes k ++ strBytes ((alookup f₂ k).getD "") := by
      intro ks
      apply List.map_congr_left
      intro k _
      rw [alookup_perm hp hn k]
    simp only [generateCacheKey, hkeys, hmap]
  · decide

/-- Witness for C7: the two filter orders of the spec's example produce
the same key. -/
theorem c7_witness :
    generateCacheKey "pizza" [("a", "1"), ("b", "2")] =
      generateCacheKey "pizza" [("b", "2"), ("a", "1")] :=
  c7_cache_key_determinism.1 "pizza" _ _ (by decide) (by decide)

/-- Claim C8: `Lock` is a non-blocking conditional create at
`lock:<key>`: it returns false and changes nothing when a live lock
entry exists; otherwise (absent or expired) it creates the entry with
expiry `now + ttl` and returns true; after `Unlock`, or once the ttl
has elapsed, a subsequent `Lock` returns true. -/
theorem c8_lock_semantics :
    ∀ (m : MemoryCache) (now : Int) (key : String) (ttl : Int),
      (∀ item, alookup m.data (lockKey key) = some item → isExpired now item = false →
        memLock m now key ttl = (.ok false, m)) ∧
      (alookup m.data (lockKey key) = none → 0 < ttl →
        memLock m now key ttl =
          (.ok true, { m with data := aset m.data (lockKey key) ⟨strBytes "locked", some (now + ttl), now⟩ })) ∧
      (∀ item, alookup m.data (lockKey key) = some item → isExpired now item = true →
        0 < ttl →
        memLock m now key ttl =
          (.ok true, { m with data := aset m.data (lockKey key) ⟨strBytes "locked", some (now + ttl), now⟩ })) ∧
      ((memLock (memUnlock m key) now key ttl).1 = .ok true) ∧
      (∀ now' : Int, 0 < ttl → (memLock m now key ttl).1 = .ok true → now + ttl < now' →
        (memLock (memLock m now key ttl).2 now' key ttl).1 = .ok true) := by
  intro m now key ttl
  refine ⟨?_, ?_, ?_, ?_, ?_⟩
  · intro item h hexp
    simp [memLock, h, hexp]
  · intro h httl
    simp [memLock, h, computeExpiry, if_pos httl]
  · intro item h hexp httl
    simp [memLock, h, hexp, computeExpiry, if_pos httl]
  · have hdel : alookup (memUnlock m key).data (lockKey key) = none :=
      alookup_adel_self _ _
    simp [memLock, hdel]
  · intro now' httl hok hlate
    have hstate : (memLock m now key ttl).2.data =
        aset m.data (lockKey key) ⟨strBytes "locked", computeExpiry now ttl, now⟩ := by
      simp only [memLock] at hok ⊢
      cases h : alookup m.data (lockKey key) with
      | none => simp [h]
      | some item =>
        rw [h] at hok
        by_cases hexp : isExpired now item
        · simp [h, hexp]
        · simp [hexp] at hok
    have hlook : alookup (memLock m now key ttl).2.data (lockKey key) =
        some ⟨strBytes "locked", computeExpiry now ttl, now⟩ := by
      rw [hstate]
      exact alookup_aset_self _ _ _
    have hexp' : isExpired now' (⟨strBytes "locked", computeExpiry now ttl, now⟩
        : MemoryItem) = true := by
      simp [isExpired, computeExpiry, if_pos httl]
      omega
    generalize hs : (memLock m now key ttl).2 = s₂ at hlook
    simp only [memLock, hlook, hexp', if_true]

/-- Witness for C8: acquire at instant 0 with ttl 100 succeeds; a second
acquire at instant 50 fails; after unlocking, or at instant 200 (past
the ttl), acquiring succeeds again. -/
theorem c8_witness :
    (memLock (⟨[], ⟨0⟩⟩ : MemoryCache) 0 "r" 100).1 = .ok true ∧
    (memLock (memLock (⟨[], ⟨0⟩⟩ : MemoryCache) 0 "r" 100).2 50 "r" 100).1 = .ok false ∧
    (memLock (memUnlock (memLock (⟨[], ⟨0⟩⟩ : MemoryCache) 0 "r" 100).2 "r")
      60 "r" 100).1 = .ok true ∧
    (memLock (memLock (⟨[], ⟨0⟩⟩ : MemoryCache) 0 "r" 100).2 200 "r" 100).1 = .ok true := by
  refine ⟨?_, ?_, ?_, ?_⟩
  · rw [(c8_lock_semantics ⟨[], ⟨0⟩⟩ 0 "r" 100).2.1 rfl (by norm_num)]
  · rw [((c8_lock_semantics (memLock (⟨[], ⟨0⟩⟩ : MemoryCache) 0 "r" 100).2
      50 "r" 100).1 ⟨strBytes "locked", some 100, 0⟩ (by decide) (by decide))]
  · exact ((c8_lock_semantics (memLock (⟨[], ⟨0⟩⟩ : MemoryCache) 0 "r" 100).2
      60 "r" 100).2.2.2.1)
  · exact ((c8_lock_semantics (⟨[], ⟨0⟩⟩ : MemoryCache) 0 "r" 100).2.2.2.2 200
      (by norm_num) (by decide) (by norm_num))

/-- Counterexample for C9: `Set` with a negative ttl is not rejected:
on the memory backend it returns a nil error and stores the entry with
no expiration at all. -/
theorem c9_negative_ttl_accepted :
    (memSet (⟨[], ⟨3600⟩⟩ : MemoryCache) 0 "k" [49] (-5)).1 = none ∧
    alookup (memSet (⟨[], ⟨3600⟩⟩ : MemoryCache) 0 "k" [49] (-5)).2.data "k" =
      some ⟨[49], none, 0⟩ := by
  decide

/-- Claim C9 (amended): `Set` with ttl = 0 applies the backend's
configured default TTL; a negative ttl is accepted, not rejected — the
write succeeds with a nil error and the entry is stored without
expiration (on either backend; the go-redis `KeepTTL` sentinel `-1`
excepted for the networked one). -/
theorem c9_set_ttl_semantics :
    ∀ (m : MemoryCache) (st : RedisState) (dTTL now : Int) (key : String) (value : Bytes),
      (0 < m.config.defaultTTL →
        memSet m now key value 0 =
          (none, { m with data := aset m.data key ⟨value, some (now + m.config.defaultTTL), now⟩ })) ∧
      (∀ ttl : Int, ttl < 0 →
        memSet m now key value ttl =
          (none, { m with data := aset m.data key ⟨value, none, now⟩ })) ∧
      (0 < dTTL →
        redisSet st dTTL now key value 0 =
          (none, ⟨aset st.data key ⟨value, some (now + dTTL)⟩⟩)) ∧
      (∀ ttl : Int, ttl < 0 → ttl ≠ keepTTL →
        redisSet st dTTL now key value ttl = (none, ⟨aset st.data key ⟨value, none⟩⟩)) := by
  intro m st dTTL now key value
  refine ⟨?_, ?_, ?_, ?_⟩
  · intro hd
    simp [memSet, computeExpiry, if_pos hd]
  · intro ttl httl
    rw [memSet]
    rw [if_neg (show ¬ ttl = 0 by omega)]
    simp [computeExpiry, if_neg (show ¬ ttl > 0 by omega)]
  · intro hd
    simp [redisSet, redisSetCmd, if_pos hd]
  · intro ttl httl hkeep
    rw [redisSet]
    rw [if_neg (show ¬ ttl = 0 by omega)]
    simp only [redisSetCmd, if_neg (show ¬ ttl > 0 by omega)]
    rw [if_neg hkeep]

/-- Witness for C9: with default TTL 3600, `Set` at instant 0 with
ttl = 0 stores expiry 3600, and with ttl = -5 stores no expiry, on both
backends. -/
theorem c9_witness :
    memSet (⟨[], ⟨3600⟩⟩ : MemoryCache) 0 "k" [49] 0 =
      (none, ⟨[("k", ⟨[49], some 3600, 0⟩)], ⟨3600⟩⟩) ∧
    memSet (⟨[], ⟨3600⟩⟩ : MemoryCache) 0 "k" [49] (-5) =
      (none, ⟨[("k", ⟨[49], none, 0⟩)], ⟨3600⟩⟩) ∧
    redisSet (⟨[]⟩ : RedisState) 3600 0 "k" [49] 0 =
      (none, ⟨[("k", ⟨[49], some 3600⟩)]⟩) ∧
    redisSet (⟨[]⟩ : RedisState) 3600 0 "k" [49] (-5) =
      (none, ⟨[("k", ⟨[49], none⟩)]⟩) := by
  have h := c9_set_ttl_semantics ⟨[], ⟨3600⟩⟩ ⟨[]⟩ 3600 0 "k" [49]
  exact ⟨h.1 (by norm_num), h.2.1 (-5) (by norm_num), h.2.2.1 (by norm_num),
    h.2.2.2 (-5) (by norm_num) (by decide)⟩

/-- Claim C10: a memory-backend `Increment` on a live entry whose
payload does not parse as a decimal int64 reports no error, treats the
current value as 0, returns the delta, and overwrites the payload with
the decimal encoding of the delta. -/
theorem c10_unparseable_payload_silently_reset :
    ∀ (m : MemoryCache) (now : Int) (key : String) (delta ttl : Int) (item : MemoryItem),
      alookup m.data key = some item → isExpired now item = false →
      parseInt64 item.value = none →
      -(2 ^ 63) ≤ delta → delta ≤ 2 ^ 63 - 1 →
      (memIncrement m now key delta ttl).1 = .ok delta ∧
      (alookup (memIncrement m now key delta ttl).2.data key).map MemoryItem.value =
        some (formatInt64 delta) := by
  intro m now key delta ttl item h hexp hparse hlo hhi
  have hw : wrap64 (0 + delta) = delta := by
    rw [Int.zero_add]
    exact wrap64_eq delta hlo hhi
  by_cases hl : item.value.length > 0
  · simp only [memIncrement, h, hexp, Bool.false_eq_true, if_false, if_pos hl, hparse, hw]
    exact ⟨by trivial, by rw [alookup_aset_self]; rfl⟩
  · simp only [memIncrement, h, hexp, Bool.false_eq_true, if_false, if_neg hl, hw]
    exact ⟨by trivial, by rw [alookup_aset_self]; rfl⟩

/-- Witness for C10: incrementing key `"k"` holding payload `"abc"` by
5 returns 5 and stores `"53"` (the bytes of `"5"`). -/
theorem c10_witness :
    (memIncrement (⟨[("k", ⟨strBytes "abc", some 100, 0⟩)], ⟨0⟩⟩ : MemoryCache)
        50 "k" 5 100).1 = .ok 5 ∧
    (alookup (memIncrement (⟨[("k", ⟨strBytes "abc", some 100, 0⟩)], ⟨0⟩⟩ : MemoryCache)
        50 "k" 5 100).2.data "k").map MemoryItem.value = some (formatInt64 5) :=
  c10_unparseable_payload_silently_reset _ 50 "k" 5 100 ⟨strBytes "abc", some 100, 0⟩
    (by decide) (by decide) (by decide) (by norm_num) (by norm_num)

end GoCache
